import Mathlib

/-
  Verification of the code-todo incremental indexing engine.

  Shallow embedding of the core of src/src/extension.js:
  the Tag Scanner (TAG_PATTERN and parseContent), the File Index Store
  (the cache and fileMap maps mutated by processFile, handleFileDelete,
  loadCacheSync and saveCache, and the staleness test of startScan),
  and two small event-interleaving machines for the temporal claims
  (the deletion race of debounceFileUpdate and handleFileDelete, and the
  pre-initialization queue retention of queueProcessing and processQueue).

  JavaScript strings are modelled as List Char, machine numbers
  (mtimeMs, size) as Nat, and JS Map objects as association lists with
  Map.set replacing the first binding of the key and appending otherwise,
  Map.delete removing the first binding, and Map.get reading the first.
-/

namespace CodeTodo

/-! ### Tag Scanner

The fixed tag set and the regex
`\b(BUG|HACK|FIXME|TODO|XXX)(?=\s|:)[:]?\s*(.*)` (TAG_PATTERN,
src/src/extension.js line 9), executed with the `g` flag (case-sensitive)
in a repeated-exec loop over each line (parseContent, lines 314-339). -/

def TAGS : List String := ["BUG", "HACK", "FIXME", "TODO", "XXX"]

/-- Characters matched by the JS regex class `\s`. -/
def jsSpace (c : Char) : Bool :=
  c = ' ' || c = '\t' || c = '\n' || c = '\r' ||
  c.toNat = 11 || c.toNat = 12 || c.toNat = 0xA0 || c.toNat = 0x1680 ||
  (0x2000 ≤ c.toNat && c.toNat ≤ 0x200A) ||
  c.toNat = 0x2028 || c.toNat = 0x2029 || c.toNat = 0x202F ||
  c.toNat = 0x205F || c.toNat = 0x3000 || c.toNat = 0xFEFF

/-- JS regex line terminators, which the dot of `(.*)` does not match. -/
def lineTerm (c : Char) : Bool :=
  c = '\n' || c = '\r' || c.toNat = 0x2028 || c.toNat = 0x2029

/-- Characters matched by the JS regex class `\w`, used by the word
boundary `\b`. -/
def wordChar (c : Char) : Bool :=
  ('a'.toNat ≤ c.toNat && c.toNat ≤ 'z'.toNat) ||
  ('A'.toNat ≤ c.toNat && c.toNat ≤ 'Z'.toNat) ||
  ('0'.toNat ≤ c.toNat && c.toNat ≤ '9'.toNat) || c = '_'

/-- ASCII uppercasing of one character, as String.prototype.toUpperCase
acts on the characters that can occur in a matched keyword. -/
def jsUpperChar (c : Char) : Char :=
  if 'a'.toNat ≤ c.toNat ∧ c.toNat ≤ 'z'.toNat then Char.ofNat (c.toNat - 32) else c

/-- JS String.prototype.toUpperCase on a list of characters. -/
def jsToUpper (s : List Char) : List Char := s.map jsUpperChar

/-- JS String.prototype.trim: strip leading and trailing whitespace. -/
def jsTrim (s : List Char) : List Char :=
  ((s.dropWhile jsSpace).reverse.dropWhile jsSpace).reverse

/-- The alternation `(BUG|HACK|FIXME|TODO|XXX)` tried at the start of `s`:
the first alternative (in pattern order) that is literally a prefix of `s`.
The alternatives share no first letter, so at most one can match. -/
def matchKeyword (s : List Char) : Option String :=
  TAGS.find? (fun t => t.toList.isPrefixOf s)

/-- Result of matching TAG_PATTERN at one position of a line: `tag` is
capture group 1 (the keyword), `rest` is capture group 2 (the `(.*)`
capture), `len` is the length of the whole match (match[0]). -/
structure TagMatch where
  tag : String
  rest : List Char
  len : Nat
deriving Repr, DecidableEq

/-- Attempt to match TAG_PATTERN at a position of a line. `prev` is the
character immediately before the position (none at position 0), used for
the word boundary `\b`; `s` is the suffix of the line from the position.
The pattern, in order: `\b`, the keyword alternation, the lookahead
`(?=\s|:)`, the greedy optional colon `[:]?`, greedy whitespace `\s*`,
and `(.*)` which runs to the next line terminator or the end of line. -/
def matchAt (prev : Option Char) (s : List Char) : Option TagMatch :=
  if prev.any wordChar then none
  else
    match matchKeyword s with
    | none => none
    | some kw =>
      let s1 := s.drop kw.length
      match s1 with
      | [] => none
      | c :: _ =>
        if jsSpace c || c = ':' then
          let colon : Nat := if c = ':' then 1 else 0
          let s2 := s1.drop colon
          let ws := s2.takeWhile jsSpace
          let s3 := s2.drop ws.length
          let rest := s3.takeWhile (fun ch => !lineTerm ch)
          some ⟨kw, rest, kw.length + colon + ws.length + rest.length⟩
        else none

/-- The repeated `regex.exec(line)` loop with the `g` flag: search for the
leftmost match at or after position `i`, emit it, and continue from the
end of the match (every match has positive length, so `line.length + 1`
fuel always suffices). Emits `(match.index, match[1], match[2])`. -/
def scanLineFrom (line : List Char) : Nat → Nat → List (Nat × String × List Char)
  | 0, _ => []
  | fuel + 1, i =>
    if i < line.length then
      match matchAt (if i = 0 then none else line.get? (i - 1)) (line.drop i) with
      | some m => (i, m.tag, m.rest) :: scanLineFrom line fuel (i + m.len)
      | none => scanLineFrom line fuel (i + 1)
    else []

/-- All TAG_PATTERN matches of one line, in ascending position order. -/
def scanLine (line : List Char) : List (Nat × String × List Char) :=
  scanLineFrom line (line.length + 1) 0

/-- One matched marker instance (the item objects pushed by parseContent,
src/src/extension.js lines 327-334). -/
structure Occurrence where
  tag : String
  text : String
  line : Nat
  column : Nat
  file : String
deriving Repr, DecidableEq

/-- The loop body of parseContent for one line: uppercase the captured
keyword, keep it only if it is a member of TAGS, and build the item with
the trimmed trailing text and the match index as column. -/
def mkItems (filePath : String) (lineNumber : Nat)
    (ms : List (Nat × String × List Char)) : List Occurrence :=
  ms.filterMap fun m =>
    let tag := (jsToUpper m.2.1.toList).asString
    if TAGS.contains tag then
      some ⟨tag, (jsTrim m.2.2).asString, lineNumber, m.1, filePath⟩
    else none

/-- The forEach over the split lines with its running line counter. -/
def scanLines (filePath : String) : Nat → List (List Char) → List Occurrence
  | _, [] => []
  | n, l :: ls => mkItems filePath n (scanLine l) ++ scanLines filePath (n + 1) ls

/-- parseContent (src/src/extension.js lines 314-339): split the content
on newline characters and scan each line with the repeated-exec loop. -/
def parseContent (content : String) (filePath : String) : List Occurrence :=
  scanLines filePath 0 (content.toList.splitOn '\n')

example : parseContent "// TODO: a BUG: b" "f" = [⟨"TODO", "a BUG: b", 0, 3, "f"⟩] := by decide

example : parseContent "todo: x" "f" = [] := by decide

example : parseContent "TODO: fix this" "f" = [⟨"TODO", "fix this", 0, 0, "f"⟩] := by decide

example : parseContent "x\nFIXME: y" "f" = [⟨"FIXME", "y", 1, 0, "f"⟩] := by decide

/-! ### File Index Store

The two JS Map objects (`cache` and `fileMap`) and the operations that
mutate them: the store-update step of processFile (lines 127-158),
handleFileDelete (lines 242-246), loadCacheSync (lines 49-62),
saveCache (lines 369-376), and the staleness test of startScan
(lines 81-83). A Map is an association list in insertion order:
Map.get reads the first binding of a key, Map.set overwrites the first
binding in place or appends a new one, Map.delete removes the binding. -/

/-- Map.prototype.get: the value at the first binding of `p`. -/
def mapGet {β : Type} : List (String × β) → String → Option β
  | [], _ => none
  | (q, v) :: rest, p => if q = p then some v else mapGet rest p

/-- Map.prototype.set: overwrite the first binding of `p` in place, or
append a new binding when the key is absent. -/
def mapSet {β : Type} : List (String × β) → String → β → List (String × β)
  | [], p, v => [(p, v)]
  | (q, w) :: rest, p, v =>
    if q = p then (p, v) :: rest else (q, w) :: mapSet rest p v

/-- Map.prototype.delete: remove the first binding of `p`. -/
def mapDelete {β : Type} : List (String × β) → String → List (String × β)
  | [], _ => []
  | (q, w) :: rest, p => if q = p then rest else (q, w) :: mapDelete rest p

/-- Keys of a JS Map are pairwise distinct; an association list models a
reachable Map state only when its keys are nodup. -/
def nodupKeys {β : Type} (l : List (String × β)) : Prop :=
  (l.map Prod.fst).Nodup

instance {β : Type} (l : List (String × β)) : Decidable (nodupKeys l) :=
  inferInstanceAs (Decidable (l.map Prod.fst).Nodup)

/-- Per-file cache record stored in `cache` (processFile lines 137-141):
modification time, size and the scanned items. -/
structure FileEntry where
  mtime : Nat
  size : Nat
  items : List Occurrence
deriving Repr, DecidableEq

/-- The provider state the claims are about: `cache` (path to FileEntry)
and `fileMap` (path to item list). -/
structure IndexState where
  cache : List (String × FileEntry)
  fileMap : List (String × List Occurrence)
deriving Repr, DecidableEq

/-- Store-update step of processFile (src/src/extension.js lines
135-145): a non-empty scan result replaces both entries wholesale, an
empty result deletes both entries. -/
def applyScan (st : IndexState) (p : String) (items : List Occurrence)
    (mtime size : Nat) : IndexState :=
  if items.length > 0 then
    { fileMap := mapSet st.fileMap p items,
      cache := mapSet st.cache p ⟨mtime, size, items⟩ }
  else
    { fileMap := mapDelete st.fileMap p,
      cache := mapDelete st.cache p }

/-- handleFileDelete (src/src/extension.js lines 242-246): drop both
entries unconditionally. -/
def handleFileDelete (st : IndexState) (p : String) : IndexState :=
  { fileMap := mapDelete st.fileMap p,
    cache := mapDelete st.cache p }

/-- processFile (src/src/extension.js lines 127-158) on a readable file:
the stat result (mtime, size) and the file content are inputs; a file
larger than the 2 MiB ceiling returns before reading content or touching
the maps, otherwise the parse result is applied keyed by the stat. -/
def processFile (st : IndexState) (p : String) (mtime size : Nat)
    (content : String) : IndexState :=
  if size > 2 * 1024 * 1024 then st
  else applyScan st p (parseContent content p) mtime size

/-- Staleness test of startScan (src/src/extension.js lines 81-83): a
file is pushed for processing iff it has no cache entry or the stored
mtime or size differs from the fresh stat. -/
def isStale (st : IndexState) (p : String) (mtime size : Nat) : Bool :=
  match mapGet st.cache p with
  | none => true
  | some e => e.mtime != mtime || e.size != size

/-- Storage key of the persisted cache blob, versioned by CACHE_VERSION
(src/src/extension.js lines 10, 51, 372). -/
def cacheKey : String := "todoCache_v" ++ toString 42

/-- The globalState key-value slot holding the serialized cache: the
JSON blob is typed as the entry list it deserializes to. -/
abbrev KVStore := List (String × List (String × FileEntry))

/-- Loop body of loadCacheSync (src/src/extension.js lines 53-58):
insert an entry into both maps when its items list is non-empty, skip it
otherwise. Entries whose items field fails the Array shape check are
skipped; in this typed embedding the shape check reduces to the length
test. -/
def loadStep (st : IndexState) (pe : String × FileEntry) : IndexState :=
  if pe.2.items.length > 0 then
    { cache := mapSet st.cache pe.1 pe.2,
      fileMap := mapSet st.fileMap pe.1 pe.2.items }
  else st

/-- loadCacheSync (src/src/extension.js lines 49-62): read the blob at
the versioned key (defaulting to the empty object) and fold the entries
into empty maps. -/
def loadCacheSync (slot : KVStore) : IndexState :=
  ((mapGet slot cacheKey).getD []).foldl loadStep ⟨[], []⟩

/-- saveCache (src/src/extension.js lines 369-376): serialize the cache
map entries (Object.fromEntries preserves insertion order) and store the
blob at the versioned key. -/
def saveCache (slot : KVStore) (st : IndexState) : KVStore :=
  mapSet slot cacheKey st.cache

/-! ### Deletion race machine

Interleavings of one in-flight processFile call for a path (scheduled by
debounceFileUpdate, src/src/extension.js lines 228-240) with a physical
deletion of that path and the watcher's delete delivery
(handleFileDelete, lines 242-246). The await points of processFile are
the atomic step boundaries: the fs.stat call, the opening of the read
stream, and the completion of the read (whose promise resolution runs
the map update synchronously, so read completion and the store update
form one step). A read stream opened before the unlink still completes
successfully on a deleted file, so the delete delivery may interleave
between scanReadStart and scanFinish. The state tracks the single path
the race is about; there is no re-creation event, matching the claim's
scope of a file that is not re-created. -/

/-- Progress of the in-flight processFile call: the stat captures the
metadata later used to key the cache entry, the read start captures the
parse of the content present on disk at that moment. -/
inductive ScanPc where
  | notStarted
  | statted (mtime size : Nat)
  | reading (mtime size : Nat) (items : List Occurrence)
  | done
deriving Repr, DecidableEq

/-- State of the race: the file on disk (mtime, size, content, or none
once deleted), the index entry for the path, and the scan progress. -/
structure RaceState where
  fs : Option (Nat × Nat × String)
  entry : Option FileEntry
  pc : ScanPc
deriving Repr, DecidableEq

inductive RaceEvent where
  | scanStat
  | scanReadStart
  | scanFinish
  | physDelete
  | deliverDelete
deriving Repr, DecidableEq

/-- One atomic step of the race. fs.stat or the stream open on a deleted
file raises ENOENT, which processFile's catch routes to handleFileDelete
(lines 152-157); a file over the 2 MiB ceiling returns without reading.
deliverDelete is the watcher's onDidDelete callback, which can only fire
once the file is physically gone. -/
def raceStep (p : String) (s : RaceState) : RaceEvent → RaceState
  | .scanStat =>
    match s.pc, s.fs with
    | .notStarted, some (m, sz, _) =>
      if sz > 2 * 1024 * 1024 then { s with pc := .done }
      else { s with pc := .statted m sz }
    | .notStarted, none => { s with entry := none, pc := .done }
    | _, _ => s
  | .scanReadStart =>
    match s.pc, s.fs with
    | .statted m sz, some (_, _, c) => { s with pc := .reading m sz (parseContent c p) }
    | .statted _ _, none => { s with entry := none, pc := .done }
    | _, _ => s
  | .scanFinish =>
    match s.pc with
    | .reading m sz items =>
      { s with
        entry := if items.length > 0 then some ⟨m, sz, items⟩ else none,
        pc := .done }
    | _ => s
  | .physDelete => { s with fs := none }
  | .deliverDelete =>
    match s.fs with
    | none => { s with entry := none }
    | some _ => s

def runRace (p : String) : RaceState → List RaceEvent → RaceState :=
  List.foldl (raceStep p)

/-! ### Pre-initialization scheduler machine

The queueProcessing / debounceProcess / processQueue scheduler of the
second engine in src/src/extension.js (lines 634-667) and the
isInitialized flag set at the end of startBackgroundProcessing (lines
567-587). queueProcessing adds a path to the pending set and resets the
debounce timer only when the path is not already pending; when the timer
fires, processQueue returns immediately (leaving the pending set intact)
if initialization has not completed, and otherwise drains the whole
pending set in bounded batches. `scanned` is a ghost log of the paths
processQueue has handed to processSingleFile. -/

structure SchedState where
  queue : List String
  isInit : Bool
  timerSet : Bool
  scanned : List String
deriving Repr, DecidableEq

inductive SchedEvent where
  | enqueue (p : String)
  | timerFire
  | initDone
deriving Repr, DecidableEq

/-- One atomic step of the scheduler: a change event for a path
(queueProcessing), the debounce timer firing (processQueue), or the end
of startBackgroundProcessing setting isInitialized. -/
def schedStep (s : SchedState) : SchedEvent → SchedState
  | .enqueue p =>
    if s.queue.contains p then s
    else { s with queue := s.queue ++ [p], timerSet := true }
  | .timerFire =>
    if !s.timerSet then s
    else if !s.isInit then { s with timerSet := false }
    else { s with timerSet := false, queue := [], scanned := s.scanned ++ s.queue }
  | .initDone => { s with isInit := true }

def runSched : SchedState → List SchedEvent → SchedState :=
  List.foldl schedStep

/-! ### Derived predicates -/

/-- Data-model invariant of the store: no entry with an empty occurrence
list exists. -/
def noEmptyEntries (st : IndexState) : Prop :=
  ∀ pe ∈ st.cache, pe.2.items ≠ []

instance (st : IndexState) : Decidable (noEmptyEntries st) :=
  inferInstanceAs (Decidable (∀ pe ∈ st.cache, pe.2.items ≠ []))

/-- Whether the in-flight scan has not yet captured file content. -/
def noReadInFlight : ScanPc → Bool
  | .reading _ _ _ => false
  | _ => true

/-! ### Sample values used by witness theorems -/

def occA : Occurrence := ⟨"TODO", "old", 0, 0, "a"⟩

def occB : Occurrence := ⟨"BUG", "new", 1, 0, "a"⟩

def entryA : FileEntry := ⟨1, 2, [occA]⟩

def occC : Occurrence := ⟨"TODO", "x", 0, 0, "f"⟩

def stA : IndexState := ⟨[("a", entryA)], [("a", [occA])]⟩

/-! ### Association list lemmas -/

theorem mapGet_mapSet_self {β : Type} (l : List (String × β)) (p : String) (v : β) :
    mapGet (mapSet l p v) p = some v := by
  induction l with
  | nil => simp [mapSet, mapGet]
  | cons hd tl ih =>
    obtain ⟨q, w⟩ := hd
    by_cases h : q = p
    · simp [mapSet, mapGet, h]
    · simp [mapSet, mapGet, h, ih]

theorem mapGet_eq_none {β : Type} (l : List (String × β)) (p : String)
    (h : p ∉ l.map Prod.fst) : mapGet l p = none := by
  induction l with
  | nil => simp [mapGet]
  | cons hd tl ih =>
    obtain ⟨q, w⟩ := hd
    simp only [List.map_cons, List.mem_cons] at h
    push_neg at h
    have hq : ¬q = p := fun e => h.1 e.symm
    simp [mapGet, hq, ih h.2]

theorem mapGet_mapDelete_self {β : Type} (l : List (String × β)) (p : String)
    (h : nodupKeys l) : mapGet (mapDelete l p) p = none := by
  induction l with
  | nil => simp [mapDelete, mapGet]
  | cons hd tl ih =>
    obtain ⟨q, w⟩ := hd
    simp only [nodupKeys, List.map_cons, List.nodup_cons] at h
    by_cases hq : q = p
    · subst hq
      simp only [mapDelete, if_pos rfl]
      exact mapGet_eq_none tl q h.1
    · simp [mapDelete, hq, mapGet, ih h.2]

theorem mem_mapSet {β : Type} (l : List (String × β)) (p : String) (v : β)
    (x : String × β) (h : x ∈ mapSet l p v) : x = (p, v) ∨ x ∈ l := by
  induction l with
  | nil => simpa [mapSet] using h
  | cons hd tl ih =>
    obtain ⟨q, w⟩ := hd
    by_cases hq : q = p
    · simp only [mapSet, if_pos hq, List.mem_cons] at h
      rcases h with h | h
      · exact Or.inl h
      · exact Or.inr (List.mem_cons_of_mem _ h)
    · simp only [mapSet, if_neg hq, List.mem_cons] at h
      rcases h with h | h
      · exact Or.inr (h ▸ List.mem_cons_self _ _)
      · rcases ih h with h2 | h2
        · exact Or.inl h2
        · exact Or.inr (List.mem_cons_of_mem _ h2)

theorem mem_mapDelete {β : Type} (l : List (String × β)) (p : String)
    (x : String × β) (h : x ∈ mapDelete l p) : x ∈ l := by
  induction l with
  | nil => simp [mapDelete] at h
  | cons hd tl ih =>
    obtain ⟨q, w⟩ := hd
    by_cases hq : q = p
    · simp only [mapDelete, if_pos hq] at h
      exact List.mem_cons_of_mem _ h
    · simp only [mapDelete, if_neg hq, List.mem_cons] at h
      rcases h with h | h
      · exact h ▸ List.mem_cons_self _ _
      · exact List.mem_cons_of_mem _ (ih h)

theorem mapSet_fresh_append {β : Type} (l : List (String × β)) (p : String) (v : β)
    (h : p ∉ l.map Prod.fst) : mapSet l p v = l ++ [(p, v)] := by
  induction l with
  | nil => simp [mapSet]
  | cons hd tl ih =>
    obtain ⟨q, w⟩ := hd
    simp only [List.map_cons, List.mem_cons] at h
    push_neg at h
    have hq : ¬q = p := fun e => h.1 e.symm
    simp [mapSet, hq, ih h.2]

/-! ### Lemmas about the cache load fold -/

theorem loadFold_cache_noEmpty (l : List (String × FileEntry)) (acc : IndexState)
    (hacc : ∀ pe ∈ acc.cache, pe.2.items ≠ []) :
    ∀ pe ∈ (l.foldl loadStep acc).cache, pe.2.items ≠ [] := by
  induction l generalizing acc with
  | nil => simpa using hacc
  | cons hd tl ih =>
    simp only [List.foldl_cons]
    apply ih
    unfold loadStep
    by_cases h : hd.2.items.length > 0
    · simp only [if_pos h]
      intro pe hpe
      rcases mem_mapSet _ _ _ _ hpe with he | he
      · subst he
        exact List.ne_nil_of_length_pos h
      · exact hacc pe he
    · simpa [if_neg h] using hacc

theorem loadFold_of_fresh (l : List (String × FileEntry)) (acc : IndexState)
    (hne : ∀ pe ∈ l, pe.2.items ≠ [])
    (hfc : ∀ pe ∈ l, pe.1 ∉ acc.cache.map Prod.fst)
    (hff : ∀ pe ∈ l, pe.1 ∉ acc.fileMap.map Prod.fst)
    (hl : nodupKeys l) :
    l.foldl loadStep acc =
      ⟨acc.cache ++ l, acc.fileMap ++ l.map (fun pe => (pe.1, pe.2.items))⟩ := by
  induction l generalizing acc with
  | nil => simp
  | cons hd tl ih =>
    obtain ⟨p, e⟩ := hd
    have hpos : e.items.length > 0 :=
      List.length_pos.mpr (hne (p, e) (List.mem_cons_self _ _))
    have hstep : loadStep acc (p, e) =
        ⟨acc.cache ++ [(p, e)], acc.fileMap ++ [(p, e.items)]⟩ := by
      unfold loadStep
      rw [if_pos hpos,
        mapSet_fresh_append _ _ _ (hfc (p, e) (List.mem_cons_self _ _)),
        mapSet_fresh_append _ _ _ (hff (p, e) (List.mem_cons_self _ _))]
    simp only [nodupKeys, List.map_cons, List.nodup_cons] at hl
    have hfresh : ∀ pe ∈ tl, pe.1 ≠ p := by
      intro pe hpe he
      exact hl.1 (he ▸ List.mem_map_of_mem Prod.fst hpe)
    rw [List.foldl_cons, hstep,
      ih ⟨acc.cache ++ [(p, e)], acc.fileMap ++ [(p, e.items)]⟩
        (fun pe hpe => hne pe (List.mem_cons_of_mem _ hpe))
        (by
          intro pe hpe
          simp only [List.map_append, List.mem_append]
          push_neg
          exact ⟨hfc pe (List.mem_cons_of_mem _ hpe), by simpa using hfresh pe hpe⟩)
        (by
          intro pe hpe
          simp only [List.map_append, List.mem_append]
          push_neg
          exact ⟨hff pe (List.mem_cons_of_mem _ hpe), by simpa using hfresh pe hpe⟩)
        hl.2]
    simp

/-! ### Claim theorems: File Index Store -/

/-- C2: the apply step of processFile replaces the stored entry
wholesale: re-reading the path immediately after applying a scan result
yields exactly the new occurrence list (no occurrence of the previous
entry survives) when it is non-empty, and nothing when it is empty. -/
theorem apply_replaces_wholesale (st : IndexState) (p : String)
    (occ : List Occurrence) (mtime size : Nat)
    (hc : nodupKeys st.cache) (hf : nodupKeys st.fileMap) :
    mapGet (applyScan st p occ mtime size).fileMap p =
      (if occ = [] then none else some occ) ∧
    mapGet (applyScan st p occ mtime size).cache p =
      (if occ = [] then none else some ⟨mtime, size, occ⟩) := by
  rcases occ with _ | ⟨a, as⟩
  · simp only [applyScan, List.length_nil, gt_iff_lt, lt_self_iff_false,
      if_neg, if_pos, ite_true, ite_false, reduceIte]
    exact ⟨mapGet_mapDelete_self _ _ hf, mapGet_mapDelete_self _ _ hc⟩
  · have hlen : (a :: as).length > 0 := by simp
    simp only [applyScan, if_pos hlen]
    simp [mapGet_mapSet_self]

theorem apply_replaces_wholesale_witness :
    nodupKeys stA.cache ∧ nodupKeys stA.fileMap ∧
    (mapGet (applyScan stA "a" [occB] 9 9).fileMap "a" =
        (if [occB] = [] then none else some [occB]) ∧
      mapGet (applyScan stA "a" [occB] 9 9).cache "a" =
        (if [occB] = [] then none else some ⟨9, 9, [occB]⟩)) :=
  ⟨by decide, by decide,
    apply_replaces_wholesale stA "a" [occB] 9 9 (by decide) (by decide)⟩

/-- C3: applying an empty scan result leaves no entry for the path (the
query answers absent, never present-with-empty-list), and the
no-empty-entry invariant is preserved by the apply step, by
handleFileDelete, and is established by the cache load. -/
theorem store_never_empty_entry (st : IndexState) (p : String)
    (occ : List Occurrence) (mtime size : Nat) (slot : KVStore)
    (hc : nodupKeys st.cache) (hne : noEmptyEntries st) :
    mapGet (applyScan st p [] mtime size).cache p = none ∧
    noEmptyEntries (applyScan st p occ mtime size) ∧
    noEmptyEntries (handleFileDelete st p) ∧
    noEmptyEntries (loadCacheSync slot) := by
  refine ⟨?_, ?_, ?_, ?_⟩
  · simp only [applyScan, List.length_nil, gt_iff_lt, lt_self_iff_false,
      reduceIte]
    exact mapGet_mapDelete_self _ _ hc
  · by_cases hlen : occ.length > 0
    · simp only [applyScan, if_pos hlen]
      intro pe hpe
      rcases mem_mapSet _ _ _ _ hpe with he | he
      · subst he
        exact List.ne_nil_of_length_pos hlen
      · exact hne pe he
    · simp only [applyScan, if_neg hlen]
      intro pe hpe
      exact hne pe (mem_mapDelete _ _ _ hpe)
  · intro pe hpe
    exact hne pe (mem_mapDelete _ _ _ hpe)
  · exact loadFold_cache_noEmpty _ ⟨[], []⟩ (by simp)

theorem store_never_empty_entry_witness :
    nodupKeys stA.cache ∧ noEmptyEntries stA ∧
    (mapGet (applyScan stA "a" [] 9 9).cache "a" = none ∧
      noEmptyEntries (applyScan stA "a" [occB] 9 9) ∧
      noEmptyEntries (handleFileDelete stA "a") ∧
      noEmptyEntries (loadCacheSync [])) :=
  ⟨by decide, by decide,
    store_never_empty_entry stA "a" [occB] 9 9 [] (by decide) (by decide)⟩

/-- C7 (amended): the staleness test of startScan is false exactly when
an entry exists whose stored mtime and size both equal the given
metadata; after applying a non-empty scan result keyed by metadata t,
the test at t is false and the test at any distinct metadata is true.
(When the applied occurrence list is empty the entry is deleted and the
test is true, which is why the amendment restricts to non-empty
results.) -/
theorem staleness_decided_by_metadata (st : IndexState) (p : String)
    (occ : List Occurrence) (mtime size mtime2 size2 : Nat)
    (hocc : occ ≠ []) (hdiff : (mtime2, size2) ≠ (mtime, size)) :
    (isStale st p mtime size = false ↔
      ∃ e, mapGet st.cache p = some e ∧ e.mtime = mtime ∧ e.size = size) ∧
    isStale (applyScan st p occ mtime size) p mtime size = false ∧
    isStale (applyScan st p occ mtime size) p mtime2 size2 = true := by
  have hlen : occ.length > 0 := List.length_pos.mpr hocc
  refine ⟨?_, ?_, ?_⟩
  · unfold isStale
    rcases h : mapGet st.cache p with _ | e
    · simp
    · simp only [h, Option.some.injEq]
      constructor
      · intro hb
        have hb2 := Bool.or_eq_false_iff.mp hb
        refine ⟨e, rfl, ?_, ?_⟩
        · simpa using hb2.1
        · simpa using hb2.2
      · rintro ⟨e2, he2, hm, hs⟩
        cases he2
        simp [hm, hs]
  · simp [applyScan, if_pos hlen, isStale, mapGet_mapSet_self]
  · simp only [applyScan, if_pos hlen, isStale, mapGet_mapSet_self]
    have : mtime ≠ mtime2 ∨ size ≠ size2 := by
      by_contra hcon
      push_neg at hcon
      exact hdiff (by simp [hcon.1, hcon.2])
    rcases this with h | h <;> simp [h]

theorem staleness_decided_by_metadata_witness :
    ([occB] : List Occurrence) ≠ [] ∧ ((3, 4) : Nat × Nat) ≠ (9, 9) ∧
    ((isStale stA "a" 9 9 = false ↔
        ∃ e, mapGet stA.cache "a" = some e ∧ e.mtime = 9 ∧ e.size = 9) ∧
      isStale (applyScan stA "a" [occB] 9 9) "a" 9 9 = false ∧
      isStale (applyScan stA "a" [occB] 9 9) "a" 3 4 = true) :=
  ⟨by decide, by decide,
    staleness_decided_by_metadata stA "a" [occB] 9 9 3 4 (by decide) (by decide)⟩

/-- C8: persisting a non-empty store state and loading it back in a
fresh instance under the same schema-versioned key reproduces the
persisted content exactly: the loaded cache is the saved entry list and
the loaded fileMap is its items projection, before any scan runs. -/
theorem cache_round_trip (slot : KVStore) (st : IndexState)
    (h1 : nodupKeys st.cache) (h2 : noEmptyEntries st) (_h3 : st.cache ≠ []) :
    loadCacheSync (saveCache slot st) =
      ⟨st.cache, st.cache.map (fun pe => (pe.1, pe.2.items))⟩ := by
  unfold loadCacheSync saveCache
  rw [mapGet_mapSet_self]
  simpa using loadFold_of_fresh st.cache ⟨[], []⟩ h2 (by simp) (by simp) h1

theorem cache_round_trip_witness :
    nodupKeys stA.cache ∧ noEmptyEntries stA ∧ stA.cache ≠ [] ∧
    loadCacheSync (saveCache [] stA) =
      ⟨stA.cache, stA.cache.map (fun pe => (pe.1, pe.2.items))⟩ :=
  ⟨by decide, by decide, by decide,
    cache_round_trip [] stA (by decide) (by decide) (by decide)⟩

/-- C9: processFile on a file whose size exceeds the 2 MiB ceiling
returns before reading content or touching the maps, so no occurrences
are recorded and any prior entry for the file is left unchanged. -/
theorem oversized_file_skipped (st : IndexState) (p : String)
    (mtime size : Nat) (content : String) (h : size > 2 * 1024 * 1024) :
    processFile st p mtime size content = st := by
  simp [processFile, h]

theorem oversized_file_skipped_witness :
    3000000 > 2 * 1024 * 1024 ∧
    processFile stA "a" 9 3000000 "TODO: huge" = stA :=
  ⟨by decide, oversized_file_skipped stA "a" 9 3000000 "TODO: huge" (by decide)⟩

/-- C7 fails as stated at the empty occurrence list: applying an empty
scan result deletes the entry, so the staleness test at the metadata
just applied answers true, not false. -/
theorem staleness_claim_counterexample :
    ¬ isStale (applyScan ⟨[], []⟩ "p" [] 0 0) "p" 0 0 = false := by decide

/-! ### Claim theorems: deletion race -/

/-- C5 fails as stated: a scan whose content read was already in flight
when the file was deleted still applies its result after the delete
event has been delivered, re-creating the entry. Concrete interleaving:
stat, read start on a file containing a marker, physical deletion,
delivery of the delete event, then the read resolving and applying. -/
theorem deletion_race_counterexample :
    (runRace "p" ⟨some (5, 7, "TODO: x"), none, .notStarted⟩
      [.scanStat, .scanReadStart, .physDelete, .deliverDelete,
        .scanFinish]).entry ≠ none := by decide

theorem raceStep_preserves (p : String) (s : RaceState) (e : RaceEvent)
    (h1 : s.fs = none) (h2 : noReadInFlight s.pc = true) (h3 : s.entry = none) :
    (raceStep p s e).fs = none ∧ noReadInFlight (raceStep p s e).pc = true ∧
      (raceStep p s e).entry = none := by
  cases e <;> cases hpc : s.pc <;>
    simp_all [raceStep, noReadInFlight]

theorem runRace_entry_none (p : String) (t : List RaceEvent) :
    ∀ s : RaceState, s.fs = none → noReadInFlight s.pc = true →
      s.entry = none → (runRace p s t).entry = none := by
  induction t with
  | nil => exact fun s _ _ h3 => h3
  | cons e t ih =>
    intro s h1 h2 h3
    have h := raceStep_preserves p s e h1 h2 h3
    exact ih _ h.1 h.2.1 h.2.2

/-- C5 (amended): deletion is authoritative over scans that have not yet
read the file content: when the delete event is delivered while the file
is physically gone and no content read of the in-flight scan is in
flight, the entry is removed and no continuation of the scan
re-creates it until the file is re-created. A scan whose read was
already in flight at delivery still applies its result afterwards (see
the counterexample), which is what the amendment excludes. -/
theorem delete_authoritative_before_read (p : String) (s : RaceState)
    (t : List RaceEvent) (h1 : s.fs = none)
    (h2 : noReadInFlight s.pc = true) :
    (runRace p (raceStep p s .deliverDelete) t).entry = none := by
  have hstep : raceStep p s .deliverDelete = { s with entry := none } := by
    simp [raceStep, h1]
  rw [hstep]
  exact runRace_entry_none p t _ h1 h2 rfl

theorem delete_authoritative_before_read_witness :
    (⟨none, some entryA, .statted 5 7⟩ : RaceState).fs = none ∧
    noReadInFlight (⟨none, some entryA, .statted 5 7⟩ : RaceState).pc = true ∧
    (runRace "p" (raceStep "p" ⟨none, some entryA, .statted 5 7⟩ .deliverDelete)
      [.scanReadStart, .scanFinish]).entry = none :=
  ⟨rfl, rfl,
    delete_authoritative_before_read "p" ⟨none, some entryA, .statted 5 7⟩
      [.scanReadStart, .scanFinish] rfl rfl⟩

/-! ### Claim theorems: pre-initialization events -/

/-- C6 fails as stated: a change event enqueued before initialization
whose debounce timer fires before initialization completes is retained
in the pending set but is not scanned when the first full pass finishes;
nothing re-arms the timer at initialization, so after the trace ends the
path still sits pending with no scan executed. -/
theorem pre_init_event_counterexample :
    "p" ∈ (runSched ⟨[], false, false, []⟩
        [.enqueue "p", .timerFire, .initDone]).queue ∧
    (runSched ⟨[], false, false, []⟩
        [.enqueue "p", .timerFire, .initDone]).scanned = [] := by decide

theorem schedStep_retains (s : SchedState) (e : SchedEvent) (p : String)
    (h : p ∈ s.queue ∨ p ∈ s.scanned) :
    p ∈ (schedStep s e).queue ∨ p ∈ (schedStep s e).scanned := by
  cases e with
  | enqueue q =>
    by_cases hq : s.queue.contains q <;>
      rcases h with h | h <;> simp_all [schedStep]
  | timerFire =>
    by_cases ht : s.timerSet
    · by_cases hi : s.isInit <;> rcases h with h | h <;>
        simp_all [schedStep]
    · simpa [schedStep, ht] using h
  | initDone => simpa [schedStep] using h

/-- C6 (amended): a filesystem-change event that arrives before
initialization completes is never silently discarded: across every
sequence of scheduler events the enqueued path remains in the pending
set or has been handed to a scan (in particular the pre-initialization
timer fire leaves the pending set intact), and the first timer fire
after initialization scans the whole pending set, this path included.
The drain is not triggered by initialization finishing itself: it waits
for the next debounce timer, which only a later enqueue of a
not-yet-pending path starts — which is what the amendment weakens. -/
theorem pre_init_events_retained (s : SchedState) (t : List SchedEvent)
    (p : String) (h : p ∈ s.queue ∨ p ∈ s.scanned) :
    (p ∈ (runSched s t).queue ∨ p ∈ (runSched s t).scanned) ∧
    (s.isInit = true → s.timerSet = true → p ∈ s.queue →
      p ∈ (schedStep s .timerFire).scanned) := by
  constructor
  · induction t generalizing s with
    | nil => exact h
    | cons e t ih => exact ih (schedStep s e) (schedStep_retains s e p h)
  · intro hi ht hq
    simp [schedStep, ht, hi, List.mem_append, hq]

/-! ### Lemmas about the Tag Scanner -/

theorem takeWhile_all {p : Char → Bool} {l : List Char}
    (h : ∀ c ∈ l, p c = true) : l.takeWhile p = l :=
  List.takeWhile_eq_self_iff.mpr h

theorem matchAt_sound (prev : Option Char) (s : List Char) (m : TagMatch)
    (h : matchAt prev s = some m) :
    m.tag ∈ TAGS ∧ m.tag.length < s.length := by
  unfold matchAt at h
  split at h
  · exact Option.noConfusion h
  split at h
  · exact Option.noConfusion h
  next kw hk =>
    simp only [] at h
    split at h
    · exact Option.noConfusion h
    next c tl hd =>
      split at h
      · simp only [Option.some.injEq] at h
        subst h
        refine ⟨List.mem_of_find?_eq_some hk, ?_⟩
        have hlen : (s.drop kw.length).length = s.length - kw.length :=
          List.length_drop _ _
        rw [hd] at hlen
        simp only [List.length_cons] at hlen
        show kw.length < s.length
        omega
      · exact Option.noConfusion h

theorem matchAt_len (prev : Option Char) (s : List Char) (m : TagMatch)
    (hterm : ∀ c ∈ s, lineTerm c = false)
    (h : matchAt prev s = some m) : m.len = s.length := by
  unfold matchAt at h
  split at h
  · exact Option.noConfusion h
  split at h
  · exact Option.noConfusion h
  next kw hk =>
    simp only [] at h
    split at h
    · exact Option.noConfusion h
    next c tl hd =>
      split at h
      next hc =>
        rw [hd] at h
        simp only [Option.some.injEq] at h
        subst h
        have hs1 : (s.drop kw.length).length = s.length - kw.length :=
          List.length_drop _ _
        rw [hd] at hs1
        simp only [List.length_cons] at hs1
        show kw.length + (if c = ':' then 1 else 0) +
            ((c :: tl).drop (if c = ':' then 1 else 0) |>.takeWhile jsSpace).length +
            ((c :: tl).drop (if c = ':' then 1 else 0) |>.drop
                ((c :: tl).drop (if c = ':' then 1 else 0) |>.takeWhile jsSpace).length
              |>.takeWhile (fun ch => !lineTerm ch)).length = s.length
        set colon : Nat := if c = ':' then 1 else 0 with hcol
        have hcolon : colon ≤ 1 := by
          rw [hcol]
          split <;> omega
        set s2 := (c :: tl).drop colon with hs2def
        have hs2 : s2.length = (c :: tl).length - colon := List.length_drop _ _
        set ws := s2.takeWhile jsSpace with hwsdef
        have hws : ws.length ≤ s2.length :=
          (List.takeWhile_sublist jsSpace).length_le
        set s3 := s2.drop ws.length with hs3def
        have hs3 : s3.length = s2.length - ws.length := List.length_drop _ _
        have hsub : ∀ x ∈ s3, lineTerm x = false := by
          intro x hx
          apply hterm
          have h1 : x ∈ s2 := List.drop_subset _ _ hx
          have h2 : x ∈ (c :: tl) := by
            rw [hs2def] at h1
            exact List.drop_subset _ _ h1
          rw [← hd] at h2
          exact List.drop_subset _ _ h2
        have hrest : s3.takeWhile (fun ch => !lineTerm ch) = s3 :=
          takeWhile_all (by
            intro x hx
            simp [hsub x hx])
        rw [hrest]
        simp only [List.length_cons] at hs2
        omega
      · exact Option.noConfusion h

theorem pre_init_events_retained_witness :
    ("p" ∈ (⟨["p"], true, true, []⟩ : SchedState).queue ∨
      "p" ∈ (⟨["p"], true, true, []⟩ : SchedState).scanned) ∧
    (("p" ∈ (runSched ⟨["p"], true, true, []⟩ [.timerFire]).queue ∨
        "p" ∈ (runSched ⟨["p"], true, true, []⟩ [.timerFire]).scanned) ∧
      ((⟨["p"], true, true, []⟩ : SchedState).isInit = true →
        (⟨["p"], true, true, []⟩ : SchedState).timerSet = true →
        "p" ∈ (⟨["p"], true, true, []⟩ : SchedState).queue →
        "p" ∈ (schedStep ⟨["p"], true, true, []⟩ .timerFire).scanned)) :=
  ⟨Or.inl (by decide),
    pre_init_events_retained ⟨["p"], true, true, []⟩ [.timerFire] "p"
      (Or.inl (by decide))⟩

theorem scanLineFrom_stop (line : List Char) (fuel i : Nat)
    (h : ¬ i < line.length) : scanLineFrom line fuel i = [] := by
  cases fuel <;> simp [scanLineFrom, h]

theorem scanLineFrom_sound (line : List Char) :
    ∀ (fuel i : Nat) (x : Nat × String × List Char),
      x ∈ scanLineFrom line fuel i →
      x.2.1 ∈ TAGS ∧ x.1 + x.2.1.length < line.length := by
  intro fuel
  induction fuel with
  | zero =>
    intro i x hx
    simp [scanLineFrom] at hx
  | succ fuel ih =>
    intro i x hx
    rw [scanLineFrom] at hx
    by_cases hi : i < line.length
    · rw [if_pos hi] at hx
      rcases hm : matchAt (if i = 0 then none else line.get? (i - 1))
          (line.drop i) with _ | m
      · rw [hm] at hx
        exact ih _ x hx
      · rw [hm] at hx
        rcases List.mem_cons.mp hx with he | ht
        · subst he
          have hs := matchAt_sound _ _ _ hm
          refine ⟨hs.1, ?_⟩
          have hlt := hs.2
          rw [List.length_drop] at hlt
          show i + m.tag.length < line.length
          omega
        · exact ih _ x ht
    · rw [if_neg hi] at hx
      simp at hx

theorem scanLine_single (line : List Char)
    (hterm : ∀ c ∈ line, lineTerm c = false) :
    ∀ (fuel i : Nat), (scanLineFrom line fuel i).length ≤ 1 := by
  intro fuel
  induction fuel with
  | zero => simp [scanLineFrom]
  | succ fuel ih =>
    intro i
    rw [scanLineFrom]
    by_cases hi : i < line.length
    · rw [if_pos hi]
      rcases hm : matchAt (if i = 0 then none else line.get? (i - 1))
          (line.drop i) with _ | m
      · exact ih _
      · have hlen := matchAt_len _ _ _
          (fun c hc => hterm c (List.drop_subset _ _ hc)) hm
        rw [List.length_drop] at hlen
        have hend : ¬ i + m.len < line.length := by omega
        show ((i, m.tag, m.rest) :: scanLineFrom line fuel (i + m.len)).length ≤ 1
        rw [scanLineFrom_stop line fuel _ hend]
        simp
    · rw [if_neg hi]
      simp

theorem tags_upper_fixed (t : String) (ht : t ∈ TAGS) :
    (jsToUpper t.toList).asString = t := by
  simp only [TAGS, List.mem_cons, List.not_mem_nil, or_false] at ht
  rcases ht with rfl | rfl | rfl | rfl | rfl <;> decide

theorem mem_mkItems (f : String) (n : Nat)
    (ms : List (Nat × String × List Char)) (occ : Occurrence)
    (h : occ ∈ mkItems f n ms) :
    ∃ x ∈ ms, occ.tag = (jsToUpper x.2.1.toList).asString ∧
      occ.line = n ∧ occ.column = x.1 := by
  unfold mkItems at h
  rcases List.mem_filterMap.mp h with ⟨x, hx, hfx⟩
  simp only [] at hfx
  split at hfx
  · simp only [Option.some.injEq] at hfx
    subst hfx
    exact ⟨x, hx, rfl, rfl, rfl⟩
  · exact Option.noConfusion hfx

theorem scanLines_sound (f : String) :
    ∀ (ls : List (List Char)) (n : Nat) (occ : Occurrence),
      occ ∈ scanLines f n ls →
      ∃ j, j < ls.length ∧ occ.line = n + j ∧ occ.tag ∈ TAGS ∧
        occ.column + occ.tag.length ≤ (ls.getD j []).length := by
  intro ls
  induction ls with
  | nil =>
    intro n occ h
    simp [scanLines] at h
  | cons l rest ih =>
    intro n occ h
    rw [scanLines] at h
    rcases List.mem_append.mp h with h | h
    · rcases mem_mkItems f n _ occ h with ⟨x, hx, htag, hline, hcol⟩
      have hs := scanLineFrom_sound l _ 0 x hx
      have htag2 : occ.tag = x.2.1 := by
        rw [htag, tags_upper_fixed _ hs.1]
      refine ⟨0, by simp, by simpa using hline, ?_, ?_⟩
      · rw [htag2]
        exact hs.1
      · rw [htag2, hcol]
        simp only [List.getD_cons_zero]
        omega
    · rcases ih (n + 1) occ h with ⟨j, hj, hline, htag, hcol⟩
      refine ⟨j + 1, by simpa using hj, by omega, htag, ?_⟩
      simpa using hcol

/-! ### Claim theorems: Tag Scanner -/

/-- C1 fails as stated: scanning the line with two markers yields one
Occurrence, not two, because the trailing `(.*)` capture of the first
match consumes the remainder of the line. -/
theorem two_tags_counterexample :
    ¬ (parseContent "// TODO: a BUG: b" "f").length = 2 := by decide

/-- C1 (amended): the trailing capture of TAG_PATTERN consumes the rest
of the line, so a line containing two tag markers produces a single
Occurrence for the first (lowest-column) marker whose text contains the
remainder of the line, second marker included: the example line yields
exactly one Occurrence, tag TODO at column 3 with text containing the
BUG marker; and in general any line free of embedded line-terminator
characters produces at most one Occurrence. -/
theorem first_tag_takes_line (f : String) (n : Nat) (line : List Char)
    (hterm : ∀ c ∈ line, lineTerm c = false) :
    (mkItems f n (scanLine line)).length ≤ 1 ∧
    parseContent "// TODO: a BUG: b" "f" = [⟨"TODO", "a BUG: b", 0, 3, "f"⟩] := by
  constructor
  · calc (mkItems f n (scanLine line)).length
        ≤ (scanLine line).length := List.length_filterMap_le _ _
      _ ≤ 1 := scanLine_single line hterm _ 0
  · decide

theorem first_tag_takes_line_witness :
    (∀ c ∈ "// TODO: a BUG: b".toList, lineTerm c = false) ∧
    ((mkItems "f" 0 (scanLine "// TODO: a BUG: b".toList)).length ≤ 1 ∧
      parseContent "// TODO: a BUG: b" "f" = [⟨"TODO", "a BUG: b", 0, 3, "f"⟩]) :=
  ⟨by decide, first_tag_takes_line "f" 0 "// TODO: a BUG: b".toList (by decide)⟩

/-- C4 fails as stated: the pattern is case-sensitive (the exec uses only
the `g` flag), so a lowercase or mixed-case keyword is not a match at
all and produces no Occurrence. -/
theorem lowercase_tag_counterexample :
    parseContent "todo: x" "f" = [] ∧ parseContent "Fixme: y" "f" = [] := by
  decide

/-- C4 (amended): keyword matching is case-sensitive: only the uppercase
keywords of the fixed tag set match, every produced Occurrence stores a
tag that is a member of the (uppercase) tag set — the toUpperCase
canonicalization being the identity on matched keywords — and lowercase
or mixed-case keyword variants yield no Occurrence. -/
theorem uppercase_only_matching (content f : String) :
    (∀ occ ∈ parseContent content f, occ.tag ∈ TAGS) ∧
    parseContent "todo: x" "f" = [] ∧
    parseContent "TODO: x" "f" = [occC] := by
  refine ⟨?_, by decide, by decide⟩
  intro occ h
  rcases scanLines_sound f _ 0 occ h with ⟨j, _, _, htag, _⟩
  exact htag

theorem uppercase_only_matching_witness :
    occC ∈ parseContent "TODO: x" "f" ∧ occC.tag ∈ TAGS :=
  ⟨by decide, (uppercase_only_matching "TODO: x" "f").1 occC (by decide)⟩

/-- C10: the scan is total by construction and position-sound: every
Occurrence it produces has a tag in the fixed tag set, a line index
below the number of split lines, and a column whose sum with the tag
length does not exceed the length of the indexed line (columns and lines
are naturals, hence non-negative). -/
theorem parse_total_and_sound (content filePath : String) :
    ∀ occ ∈ parseContent content filePath,
      occ.tag ∈ TAGS ∧
      occ.line < (content.toList.splitOn '\n').length ∧
      occ.column + occ.tag.length ≤
        ((content.toList.splitOn '\n').getD occ.line []).length := by
  intro occ h
  rcases scanLines_sound filePath _ 0 occ h with ⟨j, hj, hline, htag, hcol⟩
  have hline2 : occ.line = j := by omega
  subst hline2
  exact ⟨htag, hj, hcol⟩

theorem parse_total_and_sound_witness :
    occC ∈ parseContent "TODO: x" "f" ∧
    (occC.tag ∈ TAGS ∧
      occC.line < ("TODO: x".toList.splitOn '\n').length ∧
      occC.column + occC.tag.length ≤
        (("TODO: x".toList.splitOn '\n').getD occC.line []).length) :=
  ⟨by decide, parse_total_and_sound "TODO: x" "f" occC (by decide)⟩

end CodeTodo
